import Mathlib

set_option maxHeartbeats 1000000

/-!
Verification development for the hypervolume indicator program in src/hv.py.

The program reads a candidate solution, a list of scored solutions and an
optional reference point, classifies feasibility, resolves a reference point
(falling back to the pygmo nadir point), prunes points that do not Pareto
dominate the reference point (pygmo pareto_dominance), removes duplicates
(numpy np.unique on rows), extracts the Pareto front (is_pareto_efficient)
and finally computes the hypervolume (pygmo hypervolume.compute).

Real numbers are modelled as rationals: every comparison performed by the
program is an exact order comparison, so the order-theoretic behaviour is
captured faithfully.
-/

namespace HVModel

/-- A solution as parsed from the JSON payloads accepted by src/hv.py: an
objective vector whose entries may be null, and an optional constraint that
is either a scalar or a vector of numbers. -/
structure Solution where
  objective : List (Option ℚ)
  constraint : Option (ℚ ⊕ List ℚ)
deriving DecidableEq

/-- Embeds feasible from src/hv.py (lines 113-122): a solution is feasible
when no objective entry is null and the constraint is absent, or is a scalar
at most 0, or is a vector all of whose entries are at most 0. An empty
vector constraint yields true because numpy np.all of an empty array is
true. -/
def feasible (solution : Solution) : Bool :=
  (solution.objective.all fun o => o.isSome) &&
    (match solution.constraint with
     | none => true
     | some (Sum.inl c) => decide (c ≤ 0)
     | some (Sum.inr v) => v.all fun x => decide (x ≤ 0))

/-- The numeric objective vector of a solution; for a feasible solution the
objective has no null entry, so this is exactly its list of values. -/
def objValues (s : Solution) : List ℚ :=
  s.objective.reduceOption

/-- Embeds the feasibility filter of main in src/hv.py (lines 193-200): the
objectives of the feasible scored solutions, with the objective of the
candidate solution appended when the candidate is feasible. -/
def feasibleObjectives (sol : Solution) (scored : List Solution) : List (List ℚ) :=
  (scored.filter feasible).map objValues ++ if feasible sol then [objValues sol] else []

/-- Some coordinate of a is strictly below the matching coordinate of b
(numpy np.any of an elementwise strict comparison). -/
def anyLt (a b : List ℚ) : Bool :=
  (a.zip b).any fun q => decide (q.1 < q.2)

/-- Every coordinate of a is at most the matching coordinate of b. -/
def allLe (a b : List ℚ) : Bool :=
  (a.zip b).all fun q => decide (q.1 ≤ q.2)

/-- Models pygmo.pareto_dominance from the pagmo library (called by main in
src/hv.py, line 240; the library is an external dependency, not part of
src/). Per the pagmo documentation, obj1 Pareto dominates obj2 when obj1 is
not worse in every objective and strictly better in at least one, under the
minimization convention. -/
def pareto_dominance (obj1 obj2 : List ℚ) : Bool :=
  allLe obj1 obj2 && anyLt obj1 obj2

/-- The points of a list that are Pareto dominated by no point of the list. -/
def nondominated (points : List (List ℚ)) : List (List ℚ) :=
  points.filter fun p => !(points.any fun q => pareto_dominance q p)

/-- Coordinatewise maximum of a nonempty list of points (empty input gives
the empty vector). -/
def coordMax : List (List ℚ) → List ℚ
  | [] => []
  | [p] => p
  | p :: q :: rest => List.zipWith max p (coordMax (q :: rest))

/-- Models pygmo.nadir from the pagmo library (called by main in src/hv.py,
line 223; the library is an external dependency, not part of src/). Per the
pagmo documentation, the nadir point is the point with the maximum value of
each objective over the points of the non-dominated front of the input, not
over the whole input. -/
def nadir (points : List (List ℚ)) : List ℚ :=
  coordMax (nondominated points)

/-- Written from the words of the spec, for comparison with nadir: for each
dimension, the maximum coordinate value across all points. -/
def specNadir (points : List (List ℚ)) : List ℚ :=
  coordMax points

/-- All points of the list share the dimension of the first point; pagmo
routines raise an error on ragged inputs. -/
def sameDims (points : List (List ℚ)) : Bool :=
  points.all fun p => p.length == (points.headD []).length

/-- The Python truthiness test of the ref_point option in main (line 213): a
missing reference point and an empty list are both falsy. -/
def refTruthy : Option (List ℚ) → Bool
  | none => false
  | some [] => false
  | some (_ :: _) => true

/-- Error text used when pygmo.nadir rejects its input. -/
def nadirErrMsg : String := "nadir: dimensions mismatch"

/-- Error text used when pygmo.pareto_dominance rejects its input. -/
def dominanceErrMsg : String := "pareto_dominance: dimensions mismatch"

/-- Embeds the reference point resolution of main in src/hv.py (lines
213-224): a truthy supplied reference point is used unchanged; otherwise the
pygmo nadir point of the feasible objectives is computed (the caller has
already handled the cases of zero or one feasible point). -/
def resolveRef (r0 : Option (List ℚ)) (F : List (List ℚ)) : Except String (List ℚ) :=
  if refTruthy r0 then Except.ok (r0.getD [])
  else if sameDims F then Except.ok (nadir F)
  else Except.error nadirErrMsg

/-- Embeds the dominance pruning of main in src/hv.py (lines 238-241): keep
the points that Pareto dominate the reference point. -/
def prunePoints (F : List (List ℚ)) (r : List ℚ) : List (List ℚ) :=
  F.filter fun y => pareto_dominance y r

/-- Strict lexicographic comparison of points, the row order used by numpy
np.unique. -/
def lexLt : List ℚ → List ℚ → Bool
  | [], [] => false
  | [], _ :: _ => true
  | _ :: _, [] => false
  | a :: as, b :: bs => if a < b then true else if b < a then false else lexLt as bs

/-- Insert a point into a lexicographically sorted duplicate-free list,
keeping it sorted and duplicate-free. -/
def insertUniq (x : List ℚ) : List (List ℚ) → List (List ℚ)
  | [] => [x]
  | y :: t => if x = y then y :: t else if lexLt x y then x :: y :: t else y :: insertUniq x t

/-- Models numpy np.unique with axis 0 (called by main in src/hv.py, line
247): the lexicographically sorted list of the distinct rows of the input. -/
def np_unique (l : List (List ℚ)) : List (List ℚ) :=
  l.foldr insertUniq []

/-- One iteration of the loop body of is_pareto_efficient in src/hv.py
(lines 131-137), acting on the boolean mask: when position i is still
efficient, every still-efficient position keeps its flag exactly when its
point has some coordinate strictly below the point at i, and position i
itself is kept. -/
def maskStep (costs : List (List ℚ)) (mask : ℕ → Bool) (i : ℕ) : ℕ → Bool :=
  fun j =>
    if mask i then
      if j = i then true
      else mask j && anyLt (costs.getD j []) (costs.getD i [])
    else mask j

/-- Embeds is_pareto_efficient from src/hv.py (lines 125-138): starting from
the all-true mask, fold the loop body over the row indices in order. -/
def is_pareto_efficient (costs : List (List ℚ)) : ℕ → Bool :=
  (List.range costs.length).foldl (maskStep costs) fun _ => true

/-- Embeds the boolean mask selection of main in src/hv.py (lines 253-255):
the rows whose final mask entry is true, in order. -/
def pareto_front (costs : List (List ℚ)) : List (List ℚ) :=
  ((List.range costs.length).filter fun i => is_pareto_efficient costs i).map
    fun i => costs.getD i []

/-- Volume of the axis-aligned box spanned by a point and the reference
point: the product over the coordinates of the clamped differences. -/
def clampedBox (r p : List ℚ) : ℚ :=
  ((r.zip p).map fun q => max (q.1 - q.2) 0).prod

/-- Modelled from the spec: the HypervolumeEngine (pygmo hypervolume, an
external library not present in src/) computes the Lebesgue measure of the
union of the axis-aligned boxes spanned by each point and the reference
point. The measure is computed WFG-style by exclusive contributions: the
contribution of the first point is its box volume minus the measure of the
rest of the union clipped to that box, and clipping a box to another box
takes coordinatewise maxima of the lower corners. -/
def hvCompute (points : List (List ℚ)) (r : List ℚ) : ℚ :=
  match points with
  | [] => 0
  | p :: s =>
    (clampedBox r p - hvCompute (s.map fun q => List.zipWith max q p) r) + hvCompute s r
termination_by points.length
decreasing_by
  all_goals simp [List.length_map]

/-- Embeds the scoring pipeline of main in src/hv.py after the feasibility
filter (lines 208-273): zero for no feasible point, zero for a single
feasible point without a truthy reference point, then reference point
resolution, dominance pruning, deduplication, Pareto front extraction, a
zero early exit on an empty front, and finally the hypervolume. Errors model
the exceptions raised by the pygmo routines on malformed geometry. -/
def scorePipeline (r0 : Option (List ℚ)) (F : List (List ℚ)) : Except String ℚ :=
  if F.isEmpty then Except.ok 0
  else if !refTruthy r0 && F.length == 1 then Except.ok 0
  else
    match resolveRef r0 F with
    | Except.error m => Except.error m
    | Except.ok r =>
      if F.all fun y => y.length == r.length then
        let eff := pareto_front (np_unique (prunePoints F r))
        if eff.isEmpty then Except.ok 0
        else Except.ok (hvCompute eff r)
      else Except.error dominanceErrMsg

/-- Embeds main from src/hv.py as a function of the parsed inputs: the
feasibility filter followed by the scoring pipeline. -/
def hv_main (r0 : Option (List ℚ)) (sol : Solution) (scored : List Solution) :
    Except String ℚ :=
  scorePipeline r0 (feasibleObjectives sol scored)

/-- A payload read from the input channel: either a well-formed value or a
malformed one carrying the message of the exception its parsing or schema
validation raises. -/
inductive Parsed (α : Type) where
  | ok : α → Parsed α
  | malformed : String → Parsed α

/-- The JSON object printed by the program: a score field and an error
field, each possibly null. -/
structure Emitted where
  score : Option ℚ
  error : Option String
deriving DecidableEq

/-- Embeds the outermost driver of src/hv.py (lines 276-285): run main on
the two payloads and the reference point option; a malformed payload or an
internal failure is caught and printed as a null score together with the
error message, and a successful run prints the score alone. -/
def runProgram (p1 : Parsed Solution) (p2 : Parsed (List Solution))
    (r0 : Option (List ℚ)) : Emitted :=
  match p1 with
  | Parsed.malformed m => Emitted.mk none (some m)
  | Parsed.ok sol =>
    match p2 with
    | Parsed.malformed m => Emitted.mk none (some m)
    | Parsed.ok scored =>
      match hv_main r0 sol scored with
      | Except.ok s => Emitted.mk (some s) none
      | Except.error m => Emitted.mk none (some m)

/-- Written from the words of the spec: point a dominates point b when a is
at most b in every coordinate and strictly below b in some coordinate. -/
def Dominates (a b : List ℚ) : Prop :=
  (∀ k, k < a.length → a.getD k 0 ≤ b.getD k 0) ∧ ∃ k, k < a.length ∧ a.getD k 0 < b.getD k 0

instance (a b : List ℚ) : Decidable (Dominates a b) := by
  unfold Dominates
  infer_instance

/-! Basic bridging lemmas between the boolean comparisons of the embedding
and their index-wise meaning. -/

theorem getD_eq_get {α : Type} (l : List α) (d : α) (i : ℕ) (h : i < l.length) :
    l.getD i d = l.get ⟨i, h⟩ := by
  induction l generalizing i with
  | nil => simp at h
  | cons x t ih =>
    cases i with
    | zero => rfl
    | succ k => simpa using ih k (by simpa using h)

theorem getD_mem {α : Type} (l : List α) (d : α) (i : ℕ) (h : i < l.length) :
    l.getD i d ∈ l := by
  rw [getD_eq_get l d i h]
  exact List.get_mem l i h

theorem allLe_iff (a b : List ℚ) :
    allLe a b = true ↔ ∀ k, k < min a.length b.length → a.getD k 0 ≤ b.getD k 0 := by
  induction a generalizing b with
  | nil => simp [allLe]
  | cons x xs ih =>
    cases b with
    | nil => simp [allLe]
    | cons y ys =>
      have hcons : allLe (x :: xs) (y :: ys) = (decide (x ≤ y) && allLe xs ys) := rfl
      rw [hcons, Bool.and_eq_true, decide_eq_true_eq, ih ys]
      constructor
      · rintro ⟨hxy, hrest⟩ k hk
        cases k with
        | zero => simpa using hxy
        | succ k' =>
          simp only [List.getD_cons_succ]
          refine hrest k' ?_
          simp only [List.length_cons, Nat.succ_min_succ] at hk
          omega
      · intro h
        refine ⟨?_, ?_⟩
        · have := h 0 (by simp [Nat.succ_min_succ])
          simpa using this
        · intro k hk
          have := h (k + 1) (by simp [Nat.succ_min_succ]; omega)
          simpa using this

theorem anyLt_iff (a b : List ℚ) :
    anyLt a b = true ↔ ∃ k, k < min a.length b.length ∧ a.getD k 0 < b.getD k 0 := by
  induction a generalizing b with
  | nil => simp [anyLt]
  | cons x xs ih =>
    cases b with
    | nil => simp [anyLt]
    | cons y ys =>
      have hcons : anyLt (x :: xs) (y :: ys) = (decide (x < y) || anyLt xs ys) := rfl
      rw [hcons, Bool.or_eq_true, decide_eq_true_eq, ih ys]
      constructor
      · rintro (hxy | ⟨k, hk, hlt⟩)
        · exact ⟨0, by simp [Nat.succ_min_succ], by simpa using hxy⟩
        · refine ⟨k + 1, ?_, by simpa using hlt⟩
          simp only [List.length_cons, Nat.succ_min_succ]
          omega
      · rintro ⟨k, hk, hlt⟩
        cases k with
        | zero => exact Or.inl (by simpa using hlt)
        | succ k' =>
          refine Or.inr ⟨k', ?_, by simpa using hlt⟩
          simp only [List.length_cons, Nat.succ_min_succ] at hk
          omega

theorem allLe_of_anyLt_eq_false {a b : List ℚ} (h : anyLt a b = false) :
    allLe b a = true := by
  induction a generalizing b with
  | nil => cases b <;> simp [allLe]
  | cons x xs ih =>
    cases b with
    | nil => simp [allLe]
    | cons y ys =>
      have hcons : anyLt (x :: xs) (y :: ys) = (decide (x < y) || anyLt xs ys) := rfl
      rw [hcons, Bool.or_eq_false_iff] at h
      have h1 : ¬ x < y := by simpa using h.1
      have hcons2 : allLe (y :: ys) (x :: xs) = (decide (y ≤ x) && allLe ys xs) := rfl
      rw [hcons2, Bool.and_eq_true, decide_eq_true_eq]
      exact ⟨le_of_not_lt h1, ih h.2⟩

theorem anyLt_self (a : List ℚ) : anyLt a a = false := by
  induction a with
  | nil => rfl
  | cons x xs ih =>
    have hcons : anyLt (x :: xs) (x :: xs) = (decide (x < x) || anyLt xs xs) := rfl
    rw [hcons, ih]
    simp

theorem pareto_dominance_self (a : List ℚ) : pareto_dominance a a = false := by
  simp [pareto_dominance, anyLt_self]

theorem allLe_trans {a b c : List ℚ} (hab : a.length = b.length)
    (h1 : allLe a b = true) (h2 : allLe b c = true) : allLe a c = true := by
  rw [allLe_iff] at h1 h2 ⊢
  intro k hk
  have hka : k < a.length := lt_of_lt_of_le hk (min_le_left _ _)
  have hkc : k < c.length := lt_of_lt_of_le hk (min_le_right _ _)
  have hb1 := h1 k (lt_min (by omega) (by omega))
  have hb2 := h2 k (lt_min (by omega) (by omega))
  exact le_trans hb1 hb2

theorem eq_of_allLe_allLe {a b : List ℚ} (hab : a.length = b.length)
    (h1 : allLe a b = true) (h2 : allLe b a = true) : a = b := by
  rw [allLe_iff] at h1 h2
  refine List.ext_get hab ?_
  intro n hn1 hn2
  rw [← getD_eq_get a 0 n hn1, ← getD_eq_get b 0 n hn2]
  exact le_antisymm (h1 n (by omega)) (h2 n (by omega))

theorem anyLt_of_allLe_ne {a b : List ℚ} (hab : a.length = b.length)
    (h1 : allLe a b = true) (hne : a ≠ b) : anyLt a b = true := by
  by_contra h
  have hf : anyLt a b = false := by
    cases hq : anyLt a b
    · rfl
    · exact absurd hq h
  exact hne (eq_of_allLe_allLe hab h1 (allLe_of_anyLt_eq_false hf))

theorem zipWith_max_self (a : List ℚ) : List.zipWith max a a = a := by
  induction a with
  | nil => rfl
  | cons x xs ih => simp [List.zipWith, ih]

theorem zipWith_max_absorb (a b : List ℚ) :
    List.zipWith max a (List.zipWith max a b) = List.zipWith max a b := by
  induction a generalizing b with
  | nil => rfl
  | cons x xs ih =>
    cases b with
    | nil => rfl
    | cons y ys => simp [List.zipWith, ih, max_assoc, max_self]

theorem getD_zipWith_max (a b : List ℚ) (k : ℕ) (hk : k < min a.length b.length) :
    (List.zipWith max a b).getD k 0 = max (a.getD k 0) (b.getD k 0) := by
  induction a generalizing b k with
  | nil => simp at hk
  | cons x xs ih =>
    cases b with
    | nil => simp at hk
    | cons y ys =>
      cases k with
      | zero => rfl
      | succ k' =>
        simp only [List.zipWith, List.getD_cons_succ]
        refine ih ys k' ?_
        simp only [List.length_cons, Nat.succ_min_succ] at hk
        omega

theorem length_zipWith_max (a b : List ℚ) :
    (List.zipWith max a b).length = min a.length b.length := by
  simp [List.length_zipWith]

/-! Invariants of the efficiency mask loop. -/

theorem foldl_mask_mono (costs : List (List ℚ)) :
    ∀ (L : List ℕ) (m : ℕ → Bool) (j : ℕ),
      (L.foldl (maskStep costs) m) j = true → m j = true := by
  intro L
  induction L with
  | nil => intro m j h; exact h
  | cons a L ih =>
    intro m j h
    have h1 : (maskStep costs m a) j = true := ih _ j h
    unfold maskStep at h1
    by_cases hma : m a = true
    · rw [if_pos hma] at h1
      by_cases hja : j = a
      · subst hja; exact hma
      · rw [if_neg hja, Bool.and_eq_true] at h1
        exact h1.1
    · rwa [if_neg hma] at h1

theorem surviving_pairwise_aux (costs : List (List ℚ)) :
    ∀ (L : List ℕ) (m : ℕ → Bool) (i : ℕ), i ∈ L →
      ∀ j, (L.foldl (maskStep costs) m) i = true →
        (L.foldl (maskStep costs) m) j = true → j ≠ i →
        anyLt (costs.getD j []) (costs.getD i []) = true := by
  intro L
  induction L with
  | nil => intro m i hi; cases hi
  | cons a L ih =>
    intro m i hi j hfi hfj hji
    rcases List.mem_cons.mp hi with rfl | hiL
    · have hma1 : maskStep costs m i i = true := foldl_mask_mono costs L _ i hfi
      have hmj1 : maskStep costs m i j = true := foldl_mask_mono costs L _ j hfj
      by_cases hm : m i = true
      · unfold maskStep at hmj1
        rw [if_pos hm, if_neg hji, Bool.and_eq_true] at hmj1
        exact hmj1.2
      · unfold maskStep at hma1
        rw [if_neg hm] at hma1
        exact absurd hma1 hm
    · exact ih _ i hiL j hfi hfj hji

theorem surviving_pairwise (costs : List (List ℚ)) {i j : ℕ} (hi : i < costs.length)
    (hei : is_pareto_efficient costs i = true) (hej : is_pareto_efficient costs j = true)
    (hji : j ≠ i) : anyLt (costs.getD j []) (costs.getD i []) = true :=
  surviving_pairwise_aux costs (List.range costs.length) _ i (List.mem_range.mpr hi)
    j hei hej hji

theorem removed_dominated_aux (costs : List (List ℚ)) (d : ℕ)
    (Hd : ∀ p ∈ costs, p.length = d) :
    ∀ (L : List ℕ), (∀ a ∈ L, a < costs.length) → ∀ (m : ℕ → Bool),
      (∀ j, m j = false → ∃ i, i < costs.length ∧ m i = true ∧ i ≠ j ∧
          allLe (costs.getD i []) (costs.getD j []) = true) →
      ∀ j, (L.foldl (maskStep costs) m) j = false →
        ∃ i, i < costs.length ∧ (L.foldl (maskStep costs) m) i = true ∧ i ≠ j ∧
          allLe (costs.getD i []) (costs.getD j []) = true := by
  intro L
  induction L with
  | nil =>
    intro _ m hInv j hj
    exact hInv j hj
  | cons a L ih =>
    intro hL m hInv
    have ha : a < costs.length := hL a (List.mem_cons_self a L)
    refine ih (fun b hb => hL b (List.mem_cons_of_mem a hb)) (maskStep costs m a) ?_
    intro j hj
    by_cases hm : m a = true
    · have hja : j ≠ a := by
        intro h
        subst h
        unfold maskStep at hj
        rw [if_pos hm, if_pos rfl] at hj
        cases hj
      unfold maskStep at hj
      rw [if_pos hm, if_neg hja, Bool.and_eq_false_iff] at hj
      rcases hj with hmj | hlt
      · rcases hInv j hmj with ⟨i, hin, hmi, hij, hle⟩
        by_cases hia : i = a
        · subst hia
          refine ⟨i, hin, ?_, hij, hle⟩
          unfold maskStep
          rw [if_pos hm, if_pos rfl]
        · by_cases hlt2 : anyLt (costs.getD i []) (costs.getD a []) = true
          · refine ⟨i, hin, ?_, hij, hle⟩
            unfold maskStep
            rw [if_pos hm, if_neg hia, hmi, hlt2]
            rfl
          · have hlt2f : anyLt (costs.getD i []) (costs.getD a []) = false := by
              cases hq : anyLt (costs.getD i []) (costs.getD a [])
              · rfl
              · exact absurd hq hlt2
            have hai : allLe (costs.getD a []) (costs.getD i []) = true :=
              allLe_of_anyLt_eq_false hlt2f
            have haj : allLe (costs.getD a []) (costs.getD j []) = true := by
              refine allLe_trans ?_ hai hle
              rw [Hd _ (getD_mem costs [] a ha), Hd _ (getD_mem costs [] i hin)]
            refine ⟨a, ha, ?_, fun h => hja h.symm, haj⟩
            unfold maskStep
            rw [if_pos hm, if_pos rfl]
      · have hf : anyLt (costs.getD j []) (costs.getD a []) = false := hlt
        have haj : allLe (costs.getD a []) (costs.getD j []) = true :=
          allLe_of_anyLt_eq_false hf
        refine ⟨a, ha, ?_, fun h => hja h.symm, haj⟩
        unfold maskStep
        rw [if_pos hm, if_pos rfl]
    · have hm' : m a = false := by
        cases hq : m a
        · rfl
        · exact absurd hq hm
      have hstep : ∀ k, maskStep costs m a k = m k := by
        intro k
        unfold maskStep
        rw [if_neg hm]
      rw [hstep] at hj
      rcases hInv j hj with ⟨i, hin, hmi, hij, hle⟩
      exact ⟨i, hin, by rw [hstep]; exact hmi, hij, hle⟩

theorem removed_dominated (costs : List (List ℚ)) (d : ℕ)
    (Hd : ∀ p ∈ costs, p.length = d) {j : ℕ}
    (hj : is_pareto_efficient costs j = false) :
    ∃ i, i < costs.length ∧ is_pareto_efficient costs i = true ∧ i ≠ j ∧
      allLe (costs.getD i []) (costs.getD j []) = true := by
  refine removed_dominated_aux costs d Hd (List.range costs.length)
    (fun a ha => List.mem_range.mp ha) (fun _ => true) ?_ j hj
  intro j hj
  cases hj

theorem allkept_aux (costs : List (List ℚ))
    (hp : ∀ a b : ℕ, a < costs.length → b < costs.length → a ≠ b →
      anyLt (costs.getD b []) (costs.getD a []) = true) :
    ∀ (L : List ℕ), (∀ a ∈ L, a < costs.length) → ∀ (m : ℕ → Bool),
      (∀ j, j < costs.length → m j = true) →
      ∀ j, j < costs.length → (L.foldl (maskStep costs) m) j = true := by
  intro L
  induction L with
  | nil =>
    intro _ m hm j hj
    exact hm j hj
  | cons a L ih =>
    intro hL m hm
    have ha : a < costs.length := hL a (List.mem_cons_self a L)
    refine ih (fun b hb => hL b (List.mem_cons_of_mem a hb)) (maskStep costs m a) ?_
    intro j hj
    unfold maskStep
    rw [if_pos (hm a ha)]
    by_cases hja : j = a
    · rw [if_pos hja]
    · rw [if_neg hja, hm j hj, hp a j ha hj (fun h => hja h.symm)]
      rfl

theorem mem_pareto_front (costs : List (List ℚ)) (p : List ℚ) :
    p ∈ pareto_front costs ↔
      ∃ i, i < costs.length ∧ is_pareto_efficient costs i = true ∧ costs.getD i [] = p := by
  unfold pareto_front
  simp only [List.mem_map, List.mem_filter, List.mem_range]
  constructor
  · rintro ⟨i, ⟨hi, heff⟩, hp⟩
    exact ⟨i, hi, heff, hp⟩
  · rintro ⟨i, hi, heff, hp⟩
    exact ⟨i, ⟨hi, heff⟩, hp⟩

theorem map_getD_range {α : Type} (l : List α) (d : α) :
    (List.range l.length).map (fun i => l.getD i d) = l := by
  refine List.ext_get (by simp) ?_
  intro n h1 h2
  rw [List.get_map]
  have hn : n < l.length := h2
  have : (List.range l.length).get ⟨n, by simpa using hn⟩ = n := List.get_range n (by simpa using hn)
  rw [this, getD_eq_get l d n hn]

/-! Coordinatewise maxima and the non-dominated front. -/

theorem coordMax_cons (p : List ℚ) (l : List (List ℚ)) (hl : l ≠ []) :
    coordMax (p :: l) = List.zipWith max p (coordMax l) := by
  cases l with
  | nil => exact absurd rfl hl
  | cons q rest => rfl

theorem coordMax_length (d : ℕ) :
    ∀ (l : List (List ℚ)), l ≠ [] → (∀ p ∈ l, p.length = d) →
      (coordMax l).length = d := by
  intro l
  induction l with
  | nil => intro h; exact absurd rfl h
  | cons p rest ih =>
    intro _ hd
    cases rest with
    | nil => exact hd p (by simp)
    | cons q t =>
      rw [coordMax_cons p (q :: t) (by simp), length_zipWith_max,
        hd p (by simp), ih (by simp) (fun x hx => hd x (List.mem_cons_of_mem p hx))]
      simp

theorem coordMax_char (d : ℕ) :
    ∀ (l : List (List ℚ)), l ≠ [] → (∀ p ∈ l, p.length = d) →
      ∀ k, k < d →
        (∀ p ∈ l, p.getD k 0 ≤ (coordMax l).getD k 0) ∧
        ∃ p ∈ l, (coordMax l).getD k 0 = p.getD k 0 := by
  intro l
  induction l with
  | nil => intro h; exact absurd rfl h
  | cons p rest ih =>
    intro _ hd k hk
    cases rest with
    | nil =>
      refine ⟨?_, ⟨p, by simp, rfl⟩⟩
      intro x hx
      rcases List.mem_singleton.mp hx with rfl
      exact le_refl _
    | cons q t =>
      have hrest : (q :: t) ≠ [] := by simp
      have hdrest : ∀ x ∈ q :: t, x.length = d :=
        fun x hx => hd x (List.mem_cons_of_mem p hx)
      have hlenr : (coordMax (q :: t)).length = d := coordMax_length d (q :: t) hrest hdrest
      have hlenp : p.length = d := hd p (by simp)
      have hgd : (coordMax (p :: q :: t)).getD k 0
          = max (p.getD k 0) ((coordMax (q :: t)).getD k 0) := by
        rw [coordMax_cons p (q :: t) hrest]
        exact getD_zipWith_max p (coordMax (q :: t)) k (by rw [hlenp, hlenr]; simpa using hk)
      rcases ih hrest hdrest k hk with ⟨hub, ⟨w, hw, hweq⟩⟩
      constructor
      · intro x hx
        rcases List.mem_cons.mp hx with rfl | hx'
        · rw [hgd]; exact le_max_left _ _
        · rw [hgd]
          exact le_trans (hub x hx') (le_max_right _ _)
      · rcases le_total ((coordMax (q :: t)).getD k 0) (p.getD k 0) with hle | hle
        · exact ⟨p, by simp, by rw [hgd, max_eq_left hle]⟩
        · exact ⟨w, List.mem_cons_of_mem p hw, by rw [hgd, max_eq_right hle, hweq]⟩

theorem pareto_dominance_trans {d : ℕ} {a b c : List ℚ} (ha : a.length = d)
    (hb : b.length = d) (hc : c.length = d)
    (h1 : pareto_dominance a b = true) (h2 : pareto_dominance b c = true) :
    pareto_dominance a c = true := by
  unfold pareto_dominance at h1 h2 ⊢
  rw [Bool.and_eq_true] at h1 h2 ⊢
  refine ⟨allLe_trans (by omega) h1.1 h2.1, ?_⟩
  rcases (anyLt_iff a b).mp h1.2 with ⟨k, hk, hlt⟩
  rw [anyLt_iff]
  refine ⟨k, by omega, ?_⟩
  have hle := (allLe_iff b c).mp h2.1 k (by omega)
  calc a.getD k 0 < b.getD k 0 := hlt
    _ ≤ c.getD k 0 := hle

theorem exists_nondominated_mem (d : ℕ) :
    ∀ (F : List (List ℚ)), (∀ p ∈ F, p.length = d) → F ≠ [] →
      ∃ p ∈ F, ∀ q ∈ F, pareto_dominance q p = false := by
  intro F
  induction F with
  | nil => intro _ h; exact absurd rfl h
  | cons x t ih =>
    intro hd _
    cases t with
    | nil =>
      refine ⟨x, by simp, ?_⟩
      intro q hq
      rcases List.mem_singleton.mp hq with rfl
      exact pareto_dominance_self q
    | cons y t' =>
      have hdt : ∀ p ∈ y :: t', p.length = d := fun p hp => hd p (List.mem_cons_of_mem x hp)
      rcases ih hdt (by simp) with ⟨p, hp, hmin⟩
      by_cases hx : pareto_dominance x p = true
      · refine ⟨x, by simp, ?_⟩
        intro q hq
        rcases List.mem_cons.mp hq with rfl | hq'
        · exact pareto_dominance_self q
        · cases hqx : pareto_dominance q x with
          | false => rfl
          | true =>
            have htr := pareto_dominance_trans (hdt q hq') (hd x (by simp))
              (hdt p hp) hqx hx
            rw [hmin q hq'] at htr
            cases htr
      · refine ⟨p, List.mem_cons_of_mem x hp, ?_⟩
        intro q hq
        rcases List.mem_cons.mp hq with rfl | hq'
        · cases hqx : pareto_dominance q p with
          | false => rfl
          | true => exact absurd hqx hx
        · exact hmin q hq'

theorem nondominated_sublist {F : List (List ℚ)} {p : List ℚ}
    (h : p ∈ nondominated F) : p ∈ F :=
  (List.mem_filter.mp h).1

theorem nondominated_ne_nil (d : ℕ) (F : List (List ℚ))
    (Hd : ∀ p ∈ F, p.length = d) (hne : F ≠ []) : nondominated F ≠ [] := by
  rcases exists_nondominated_mem d F Hd hne with ⟨p, hp, hmin⟩
  have hmem : p ∈ nondominated F := by
    unfold nondominated
    rw [List.mem_filter]
    refine ⟨hp, ?_⟩
    rw [Bool.not_eq_true']
    rw [List.any_eq_false]
    intro q hq
    rw [hmin q hq]
    simp
  exact List.ne_nil_of_mem hmem

/-! Inserting an adjacent duplicate changes nothing downstream: these
congruence lemmas drive the duplicate-removal claim. -/

theorem all_dup {α : Type} (X Y : List α) (o : α) (p : α → Bool) :
    (X ++ o :: o :: Y).all p = (X ++ o :: Y).all p := by
  simp only [List.all_append, List.all_cons]
  cases p o <;> simp

theorem any_dup {α : Type} (X Y : List α) (o : α) (p : α → Bool) :
    (X ++ o :: o :: Y).any p = (X ++ o :: Y).any p := by
  simp only [List.any_append, List.any_cons]
  cases p o <;> simp

theorem headD_dup (X Y : List (List ℚ)) (o : List ℚ) :
    (X ++ o :: o :: Y).headD [] = (X ++ o :: Y).headD [] := by
  cases X <;> rfl

theorem sameDims_dup (X Y : List (List ℚ)) (o : List ℚ) :
    sameDims (X ++ o :: o :: Y) = sameDims (X ++ o :: Y) := by
  unfold sameDims
  rw [headD_dup]
  exact all_dup X Y o _

theorem coordMax_dup (X Y : List (List ℚ)) (o : List ℚ) :
    coordMax (X ++ o :: o :: Y) = coordMax (X ++ o :: Y) := by
  induction X with
  | nil =>
    cases Y with
    | nil => simp [coordMax, zipWith_max_self]
    | cons y ys =>
      show List.zipWith max o (coordMax (o :: y :: ys)) = coordMax (o :: y :: ys)
      rw [show coordMax (o :: y :: ys) = List.zipWith max o (coordMax (y :: ys)) from rfl]
      exact zipWith_max_absorb o (coordMax (y :: ys))
  | cons x X' ih =>
    have h1 : X' ++ o :: o :: Y ≠ [] := by simp
    have h2 : X' ++ o :: Y ≠ [] := by simp
    rw [List.cons_append, List.cons_append, coordMax_cons x _ h1, coordMax_cons x _ h2, ih]

theorem nadir_dup (X Y : List (List ℚ)) (o : List ℚ) :
    nadir (X ++ o :: o :: Y) = nadir (X ++ o :: Y) := by
  unfold nadir nondominated
  have hpred : ∀ x ∈ X ++ o :: o :: Y,
      (!((X ++ o :: o :: Y).any fun q => pareto_dominance q x))
        = (!((X ++ o :: Y).any fun q => pareto_dominance q x)) := by
    intro x _
    rw [any_dup]
  rw [List.filter_congr hpred]
  set p : List ℚ → Bool := fun x => !((X ++ o :: Y).any fun q => pareto_dominance q x) with hp
  rw [List.filter_append, List.filter_append, List.filter_cons, List.filter_cons]
  cases hpo : p o
  · simp [hpo]
  · simp only [hpo, if_true]
    exact coordMax_dup (X.filter p) (Y.filter p) o

theorem resolveRef_dup (r0 : Option (List ℚ)) (X Y : List (List ℚ)) (o : List ℚ) :
    resolveRef r0 (X ++ o :: o :: Y) = resolveRef r0 (X ++ o :: Y) := by
  unfold resolveRef
  cases h : refTruthy r0
  · simp only [h, Bool.false_eq_true, if_false]
    rw [sameDims_dup, nadir_dup]
  · simp [h]

theorem insertUniq_idem (x : List ℚ) (L : List (List ℚ)) :
    insertUniq x (insertUniq x L) = insertUniq x L := by
  induction L with
  | nil => simp [insertUniq]
  | cons y t ih =>
    by_cases hxy : x = y
    · subst hxy
      simp [insertUniq]
    · by_cases hlt : lexLt x y = true
      · simp [insertUniq, hxy, hlt]
      · simp only [insertUniq, if_neg hxy, if_neg hlt]
        rw [ih]

theorem np_unique_dup (X Y : List (List ℚ)) (o : List ℚ) :
    np_unique (X ++ o :: o :: Y) = np_unique (X ++ o :: Y) := by
  unfold np_unique
  rw [List.foldr_append, List.foldr_append]
  simp only [List.foldr_cons]
  rw [insertUniq_idem]

theorem prune_unique_dup (X Y : List (List ℚ)) (o r : List ℚ) :
    np_unique (prunePoints (X ++ o :: o :: Y) r) = np_unique (prunePoints (X ++ o :: Y) r) := by
  unfold prunePoints
  rw [List.filter_append, List.filter_append, List.filter_cons, List.filter_cons]
  cases hp : pareto_dominance o r
  · simp [hp]
  · simp only [hp, if_true]
    exact np_unique_dup _ _ o

theorem pareto_front_nil : pareto_front [] = [] := rfl

theorem scorePipeline_pair_self (r0 : Option (List ℚ)) (o : List ℚ)
    (h : refTruthy r0 = false) : scorePipeline r0 [o, o] = Except.ok 0 := by
  have hnad : nadir [o, o] = o := by
    unfold nadir nondominated
    simp [List.any_cons, pareto_dominance_self, List.filter_cons, coordMax, zipWith_max_self]
  have hres : resolveRef r0 [o, o] = Except.ok o := by
    unfold resolveRef
    rw [h]
    simp [sameDims, hnad]
  have hprune : prunePoints [o, o] o = [] := by
    unfold prunePoints
    simp [List.filter_cons, pareto_dominance_self]
  unfold scorePipeline
  rw [hres]
  simp [h, hprune, np_unique, pareto_front_nil]

theorem scorePipeline_dup (r0 : Option (List ℚ)) (X Y : List (List ℚ)) (o : List ℚ) :
    scorePipeline r0 (X ++ o :: o :: Y) = scorePipeline r0 (X ++ o :: Y) := by
  by_cases hone : refTruthy r0 = false ∧ X = [] ∧ Y = []
  · rcases hone with ⟨hr, rfl, rfl⟩
    rw [show ([] : List (List ℚ)) ++ o :: o :: [] = [o, o] from rfl,
      show ([] : List (List ℚ)) ++ o :: [] = [o] from rfl]
    rw [scorePipeline_pair_self r0 o hr]
    unfold scorePipeline
    simp [hr]
  · have hlen2 : ¬ ((X ++ o :: o :: Y).length = 1) := by
      simp only [List.length_append, List.length_cons]
      omega
    have hlen1 : refTruthy r0 = true ∨ ¬ ((X ++ o :: Y).length = 1) := by
      by_cases hr : refTruthy r0 = true
      · exact Or.inl hr
      · refine Or.inr ?_
        intro hl
        simp only [List.length_append, List.length_cons] at hl
        have hx : X = [] := by
          cases X with
          | nil => rfl
          | cons a t => simp at hl; omega
        have hy : Y = [] := by
          cases Y with
          | nil => rfl
          | cons a t => simp at hl; omega
        exact hone ⟨by simpa using hr, hx, hy⟩
    unfold scorePipeline
    have hne1 : ((X ++ o :: o :: Y).isEmpty) = false := by simp
    have hne2 : ((X ++ o :: Y).isEmpty) = false := by simp
    rw [hne1, hne2]
    simp only [Bool.false_eq_true, if_false]
    have hcond1 : (!refTruthy r0 && (X ++ o :: o :: Y).length == 1) = false := by
      cases hr : refTruthy r0
      · simp only [hr, Bool.not_false, Bool.true_and]
        rw [beq_eq_false_iff_ne]
        exact hlen2
      · simp [hr]
    have hcond2 : (!refTruthy r0 && (X ++ o :: Y).length == 1) = false := by
      cases hr : refTruthy r0
      · simp only [hr, Bool.not_false, Bool.true_and]
        rw [beq_eq_false_iff_ne]
        rcases hlen1 with hr' | hl
        · rw [hr] at hr'; cases hr'
        · exact hl
      · simp [hr]
    rw [hcond1, hcond2]
    simp only [Bool.false_eq_true, if_false]
    rw [resolveRef_dup r0 X Y o]
    cases hres : resolveRef r0 (X ++ o :: Y) with
    | error m => rfl
    | ok r =>
      dsimp only
      rw [all_dup X Y o fun y => y.length == r.length]
      cases hg : (X ++ o :: Y).all fun y => y.length == r.length
      · simp [hg]
      · simp only [hg, if_true]
        rw [prune_unique_dup X Y o r]

theorem clampedBox_eq_prod (r p : List ℚ) (d : ℕ) (hr : r.length = d) (hp : p.length = d) :
    clampedBox r p = ∏ k ∈ Finset.range d, max (r.getD k 0 - p.getD k 0) 0 := by
  induction d generalizing r p with
  | zero =>
    have hr0 : r = [] := List.length_eq_zero.mp hr
    have hp0 : p = [] := List.length_eq_zero.mp hp
    subst hr0; subst hp0
    simp [clampedBox]
  | succ d' ih =>
    cases r with
    | nil => simp at hr
    | cons a r' =>
      cases p with
      | nil => simp at hp
      | cons b p' =>
        have hr' : r'.length = d' := by simpa using hr
        have hp' : p'.length = d' := by simpa using hp
        have hbox : clampedBox (a :: r') (b :: p') = max (a - b) 0 * clampedBox r' p' := rfl
        rw [hbox, ih r' p' hr' hp', Finset.prod_range_succ']
        simp only [List.getD_cons_succ, List.getD_cons_zero]
        ring

/-! The claims. -/

/-- C7: feasible returns true exactly when the objective contains no missing
component and the constraint is absent, or a scalar at most zero, or a
vector all of whose components are at most zero (an empty vector trivially
satisfies the latter); in particular a missing objective component makes the
solution infeasible regardless of its constraint, since the right hand side
then fails. -/
theorem C7_feasible_iff (s : Solution) :
    feasible s = true ↔
      ((∀ o ∈ s.objective, o ≠ none) ∧
        (match s.constraint with
         | none => True
         | some (Sum.inl c) => c ≤ 0
         | some (Sum.inr v) => ∀ x ∈ v, x ≤ 0)) := by
  obtain ⟨obj, con⟩ := s
  cases con with
  | none => simp [feasible, List.all_eq_true, Option.isSome_iff_ne_none]
  | some c =>
    cases c with
    | inl a => simp [feasible, List.all_eq_true, Option.isSome_iff_ne_none]
    | inr v => simp [feasible, List.all_eq_true, Option.isSome_iff_ne_none]

/-- C4: every run of the program emits exactly one of the two output shapes:
a numeric score with no error field, or a null score together with an error
message; in particular a malformed payload yields the null-score error
output rather than a crash. -/
theorem C4_output_shape (p1 : Parsed Solution) (p2 : Parsed (List Solution))
    (r0 : Option (List ℚ)) :
    ((∃ s, runProgram p1 p2 r0 = Emitted.mk (some s) none) ∨
      (∃ m, runProgram p1 p2 r0 = Emitted.mk none (some m))) ∧
    (∀ m, runProgram (Parsed.malformed m) p2 r0 = Emitted.mk none (some m)) := by
  constructor
  · cases p1 with
    | malformed m => exact Or.inr ⟨m, rfl⟩
    | ok sol =>
      cases p2 with
      | malformed m => exact Or.inr ⟨m, rfl⟩
      | ok scored =>
        cases h : hv_main r0 sol scored with
        | ok s =>
          refine Or.inl ⟨s, ?_⟩
          unfold runProgram
          dsimp only
          rw [h]
        | error m =>
          refine Or.inr ⟨m, ?_⟩
          unfold runProgram
          dsimp only
          rw [h]
  · intro m
    rfl

/-- C10: a supplied reference point that is an empty list is treated exactly
like an absent reference point: the run produces the same output, proceeding
to the nadir fallback or the zero-score exits rather than using or rejecting
the empty vector. -/
theorem C10_empty_ref_like_none (p1 : Parsed Solution) (p2 : Parsed (List Solution)) :
    runProgram p1 p2 (some []) = runProgram p1 p2 none := by
  cases p1 with
  | malformed m => rfl
  | ok sol =>
    cases p2 with
    | malformed m => rfl
    | ok scored => rfl

/-- C9: duplicating an objective vector of the scored population leaves the
output unchanged: a run in which a scored solution appears twice in a row
emits exactly what the run with the solution appearing once emits. -/
theorem C9_duplicate_invariant (sol s : Solution) (l1 l2 : List Solution)
    (r0 : Option (List ℚ)) :
    runProgram (Parsed.ok sol) (Parsed.ok (l1 ++ s :: s :: l2)) r0
      = runProgram (Parsed.ok sol) (Parsed.ok (l1 ++ s :: l2)) r0 := by
  have key : hv_main r0 sol (l1 ++ s :: s :: l2) = hv_main r0 sol (l1 ++ s :: l2) := by
    unfold hv_main feasibleObjectives
    cases hs : feasible s
    · simp [List.filter_append, List.filter_cons, hs]
    · simp only [List.filter_append, List.filter_cons, hs, if_true, List.map_append,
        List.map_cons, List.append_assoc, List.cons_append]
      exact scorePipeline_dup r0 _ _ _
  unfold runProgram
  dsimp only
  rw [key]

/-- C6: the hypervolume engine yields zero on the empty point set; on a
single point it yields the product over the dimensions of the clamped
differences between the reference point and the point; and the concrete
two-dimensional instance of point (1,1) against reference point (4,4)
yields exactly 9. -/
theorem C6_hv_basics :
    (∀ r : List ℚ, hvCompute [] r = 0) ∧
    (∀ (p r : List ℚ) (d : ℕ), p.length = d → r.length = d →
      hvCompute [p] r = ∏ k ∈ Finset.range d, max (r.getD k 0 - p.getD k 0) 0) ∧
    hvCompute [[1, 1]] [4, 4] = 9 := by
  have hnil : ∀ r : List ℚ, hvCompute [] r = 0 := by
    intro r
    simp [hvCompute]
  have hone : ∀ p r : List ℚ, hvCompute [p] r = clampedBox r p := by
    intro p r
    rw [hvCompute]
    simp [hnil]
  refine ⟨hnil, ?_, ?_⟩
  · intro p r d hp hr
    rw [hone p r, clampedBox_eq_prod r p d hr hp]
  · rw [hone [1, 1] [4, 4]]
    norm_num [clampedBox, List.zip]

/-- C6 witness: the single-point formula applied to the concrete instance of
the claim. -/
theorem C6_witness :
    ([1, 1] : List ℚ).length = 2 ∧ ([4, 4] : List ℚ).length = 2 ∧
    hvCompute [[1, 1]] [4, 4]
      = ∏ k ∈ Finset.range 2, max (([4, 4] : List ℚ).getD k 0 - ([1, 1] : List ℚ).getD k 0) 0 :=
  ⟨rfl, rfl, C6_hv_basics.2.1 [1, 1] [4, 4] 2 rfl rfl⟩

/-- C1 counterexample: with reference point (0,2), the point (0,1) is
retained by the dominance pruning of the program although its first
coordinate equals the first coordinate of the reference point, so it is not
strictly below the reference point in every coordinate as the claim
requires. -/
theorem C1_counterexample :
    prunePoints [[0, 1]] [0, 2] = [[0, 1]] ∧
      ¬ (∀ k, k < 2 → (([0, 1] : List ℚ).getD k 0 < ([0, 2] : List ℚ).getD k 0)) := by
  constructor
  · decide
  · intro h
    have h0 := h 0 (by omega)
    simp at h0

/-- C1 amended: the dominance pruning retains exactly the points that Pareto
dominate the reference point in the weak sense used by pygmo: at most the
reference point in every coordinate and strictly below it in at least one
coordinate. -/
theorem C1_prune_iff (F : List (List ℚ)) (r : List ℚ) (d : ℕ)
    (HF : ∀ p ∈ F, p.length = d) (hr : r.length = d) (y : List ℚ) :
    y ∈ prunePoints F r ↔
      (y ∈ F ∧ (∀ k, k < d → y.getD k 0 ≤ r.getD k 0) ∧
        (∃ k, k < d ∧ y.getD k 0 < r.getD k 0)) := by
  unfold prunePoints
  rw [List.mem_filter]
  constructor
  · rintro ⟨hyF, hpd⟩
    have hyd : y.length = d := HF y hyF
    rw [pareto_dominance, Bool.and_eq_true] at hpd
    have h1 := (allLe_iff y r).mp hpd.1
    have h2 := (anyLt_iff y r).mp hpd.2
    rw [hyd, hr, Nat.min_self] at h1 h2
    exact ⟨hyF, h1, h2⟩
  · rintro ⟨hyF, h1, h2⟩
    have hyd : y.length = d := HF y hyF
    refine ⟨hyF, ?_⟩
    rw [pareto_dominance, Bool.and_eq_true]
    constructor
    · rw [allLe_iff, hyd, hr, Nat.min_self]
      exact h1
    · rw [anyLt_iff, hyd, hr, Nat.min_self]
      exact h2

/-- C1 witness: the amended characterization instantiated on a concrete
prune. -/
theorem C1_witness :
    (∀ p ∈ ([[1, 1], [5, 5]] : List (List ℚ)), p.length = 2) ∧
    ([4, 4] : List ℚ).length = 2 ∧
    [1, 1] ∈ prunePoints [[1, 1], [5, 5]] [4, 4] :=
  ⟨by decide, by decide,
    (C1_prune_iff [[1, 1], [5, 5]] [4, 4] 2 (by decide) (by decide) [1, 1]).mpr
      ⟨by decide, by decide, 0, by omega, by decide⟩⟩

/-- C2 counterexample: for the feasible points (0,0) and (5,5), with no
reference point supplied, the fallback reference point computed by the
program is (0,0), the coordinatewise maximum over the non-dominated front
alone, and it differs from (5,5), the coordinatewise maximum across all
feasible points asserted by the claim. -/
theorem C2_counterexample :
    resolveRef none [[0, 0], [5, 5]] = Except.ok [0, 0] ∧
      specNadir [[0, 0], [5, 5]] = [5, 5] ∧ ([0, 0] : List ℚ) ≠ [5, 5] := by
  refine ⟨rfl, rfl, by decide⟩

/-- C2 amended: with no truthy reference point and at least two feasible
points of equal dimension, the fallback reference point is the pygmo nadir
point: in every dimension an upper bound of the non-dominated front of the
feasible points that is attained on that front. -/
theorem C2_nadir_fallback (r0 : Option (List ℚ)) (F : List (List ℚ)) (d : ℕ)
    (h0 : refTruthy r0 = false) (Hd : ∀ p ∈ F, p.length = d) (h2 : 2 ≤ F.length) :
    resolveRef r0 F = Except.ok (nadir F) ∧ (nadir F).length = d ∧
      ∀ k, k < d →
        (∀ p ∈ nondominated F, p.getD k 0 ≤ (nadir F).getD k 0) ∧
        ∃ p ∈ nondominated F, (nadir F).getD k 0 = p.getD k 0 := by
  have hne : F ≠ [] := by
    intro h
    rw [h] at h2
    simp at h2
  have hndne : nondominated F ≠ [] := nondominated_ne_nil d F Hd hne
  have hnd_dims : ∀ p ∈ nondominated F, p.length = d :=
    fun p hp => Hd p (nondominated_sublist hp)
  have hsame : sameDims F = true := by
    unfold sameDims
    rw [List.all_eq_true]
    intro p hp
    have hhead : F.headD [] ∈ F := by
      cases F with
      | nil => exact absurd rfl hne
      | cons a t => exact List.mem_cons_self a t
    rw [Hd p hp, Hd _ hhead]
    simp
  refine ⟨?_, coordMax_length d _ hndne hnd_dims, ?_⟩
  · unfold resolveRef
    rw [h0, hsame]
    simp
  · intro k hk
    exact coordMax_char d (nondominated F) hndne hnd_dims k hk

/-- C2 witness: the amended fallback theorem instantiated on two concrete
feasible points. -/
theorem C2_witness :
    refTruthy none = false ∧
    (∀ p ∈ ([[0, 0], [5, 5]] : List (List ℚ)), p.length = 2) ∧
    2 ≤ ([[0, 0], [5, 5]] : List (List ℚ)).length ∧
    resolveRef none [[0, 0], [5, 5]] = Except.ok (nadir [[0, 0], [5, 5]]) :=
  ⟨rfl, by decide, by decide,
    (C2_nadir_fallback none [[0, 0], [5, 5]] 2 rfl (by decide) (by decide)).1⟩

/-- C3: each degenerate-but-valid condition deterministically yields the
success output with score zero: no feasible point; exactly one feasible
point without a truthy reference point; and an empty set surviving the
pruning, deduplication and front extraction stages. The model is built from
total functions, so each case terminates. -/
theorem C3_degenerate_zero (sol : Solution) (scored : List Solution)
    (r0 : Option (List ℚ)) :
    (feasibleObjectives sol scored = [] →
      runProgram (Parsed.ok sol) (Parsed.ok scored) r0 = Emitted.mk (some 0) none) ∧
    (refTruthy r0 = false → (feasibleObjectives sol scored).length = 1 →
      runProgram (Parsed.ok sol) (Parsed.ok scored) r0 = Emitted.mk (some 0) none) ∧
    (∀ r, (!refTruthy r0 && (feasibleObjectives sol scored).length == 1) = false →
      resolveRef r0 (feasibleObjectives sol scored) = Except.ok r →
      ((feasibleObjectives sol scored).all fun y => y.length == r.length) = true →
      pareto_front (np_unique (prunePoints (feasibleObjectives sol scored) r)) = [] →
      runProgram (Parsed.ok sol) (Parsed.ok scored) r0 = Emitted.mk (some 0) none) := by
  have hrun : ∀ s : ℚ, hv_main r0 sol scored = Except.ok s →
      runProgram (Parsed.ok sol) (Parsed.ok scored) r0 = Emitted.mk (some s) none := by
    intro s h
    unfold runProgram
    dsimp only
    rw [h]
  refine ⟨?_, ?_, ?_⟩
  · intro h
    refine hrun 0 ?_
    unfold hv_main
    rw [h]
    rfl
  · intro hr hl
    refine hrun 0 ?_
    unfold hv_main scorePipeline
    have hne : (feasibleObjectives sol scored).isEmpty = false := by
      cases hq : (feasibleObjectives sol scored).isEmpty
      · rfl
      · rw [List.isEmpty_iff] at hq
        rw [hq] at hl
        simp at hl
    rw [hne, hr, hl]
    simp
  · intro r hcond hres hguard heff
    refine hrun 0 ?_
    unfold hv_main scorePipeline
    cases hne : (feasibleObjectives sol scored).isEmpty
    · simp only [Bool.false_eq_true, if_false]
      rw [hcond]
      simp only [Bool.false_eq_true, if_false]
      rw [hres]
      dsimp only
      rw [hguard]
      simp only [if_true]
      rw [heff]
      rfl
    · simp

/-- C3 witness: an infeasible candidate with an empty population has no
feasible point and the program emits score zero. -/
theorem C3_witness :
    feasibleObjectives (Solution.mk [some 1, some 2] (some (Sum.inl 5))) [] = [] ∧
    runProgram (Parsed.ok (Solution.mk [some 1, some 2] (some (Sum.inl 5))))
        (Parsed.ok []) none = Emitted.mk (some 0) none :=
  ⟨by decide, (C3_degenerate_zero (Solution.mk [some 1, some 2] (some (Sum.inl 5)))
    [] none).1 (by decide)⟩

/-- C5: on a duplicate-free list of points of equal dimension, the Pareto
front extraction returns exactly the non-dominated points: a point is in
the output iff it is an input point that no input point dominates, where
dominance is coordinatewise at most with strict inequality somewhere. -/
theorem C5_front_exact (costs : List (List ℚ)) (d : ℕ) (hnd : costs.Nodup)
    (Hd : ∀ p ∈ costs, p.length = d) (p : List ℚ) :
    p ∈ pareto_front costs ↔ (p ∈ costs ∧ ∀ q ∈ costs, ¬ Dominates q p) := by
  constructor
  · intro hmem
    rcases (mem_pareto_front costs p).mp hmem with ⟨i, hi, heff, hpi⟩
    have hpc : p ∈ costs := by
      rw [← hpi]
      exact getD_mem costs [] i hi
    have hpd : p.length = d := Hd p hpc
    refine ⟨hpc, ?_⟩
    rintro q hq ⟨hdall, k, hk, hklt⟩
    have hqd : q.length = d := Hd q hq
    have hqp : q ≠ p := by
      intro he
      rw [he] at hklt
      exact lt_irrefl _ hklt
    rcases List.mem_iff_get.mp hq with ⟨⟨iq, hiq⟩, hqe⟩
    have hciq : costs.getD iq [] = q := by
      rw [getD_eq_get costs [] iq hiq]
      exact hqe
    have hine : iq ≠ i := by
      intro he
      rw [he, hpi] at hciq
      exact hqp hciq.symm
    have hqple : allLe q p = true := by
      rw [allLe_iff, hqd, hpd, Nat.min_self]
      intro k' hk'
      exact hdall k' (by omega)
    cases heq : is_pareto_efficient costs iq
    · rcases removed_dominated costs d Hd heq with ⟨i', hi', heff', hii', hle⟩
      rw [hciq] at hle
      have hi'd : (costs.getD i' []).length = d := Hd _ (getD_mem costs [] i' hi')
      by_cases hieq : i' = i
      · rw [hieq, hpi] at hle
        have : p = q := eq_of_allLe_allLe (by omega) hle hqple
        exact hqp this.symm
      · have hany := surviving_pairwise costs hi' heff' heff
          (fun h => hieq h.symm)
        rw [hpi] at hany
        rcases (anyLt_iff p (costs.getD i' [])).mp hany with ⟨k', hk', hlt⟩
        rw [hpd, hi'd, Nat.min_self] at hk'
        have h1 := (allLe_iff (costs.getD i' []) q).mp hle k' (by
          rw [hi'd, hqd, Nat.min_self]
          exact hk')
        have h2 := (allLe_iff q p).mp hqple k' (by
          rw [hqd, hpd, Nat.min_self]
          exact hk')
        exact absurd (lt_of_lt_of_le hlt (le_trans h1 h2)) (lt_irrefl _)
    · have hany := surviving_pairwise costs hiq heq heff hine.symm
      rw [hpi, hciq] at hany
      rcases (anyLt_iff p q).mp hany with ⟨k', hk', hlt⟩
      rw [hpd, hqd, Nat.min_self] at hk'
      have h2 := (allLe_iff q p).mp hqple k' (by
        rw [hqd, hpd, Nat.min_self]
        exact hk')
      exact absurd (lt_of_lt_of_le hlt h2) (lt_irrefl _)
  · rintro ⟨hp, hnondom⟩
    rcases List.mem_iff_get.mp hp with ⟨⟨ip, hip⟩, hpe⟩
    have hcip : costs.getD ip [] = p := by
      rw [getD_eq_get costs [] ip hip]
      exact hpe
    cases he : is_pareto_efficient costs ip
    · rcases removed_dominated costs d Hd he with ⟨i', hi', heff', hii', hle⟩
      rw [hcip] at hle
      have hmemi' : costs.getD i' [] ∈ costs := getD_mem costs [] i' hi'
      have hi'd : (costs.getD i' []).length = d := Hd _ hmemi'
      have hpd : p.length = d := Hd p hp
      have hne2 : costs.getD i' [] ≠ p := by
        intro he2
        refine hii' ?_
        have hg1 : costs.get ⟨i', hi'⟩ = costs.get ⟨ip, hip⟩ := by
          rw [← getD_eq_get costs [] i' hi', ← getD_eq_get costs [] ip hip, he2, hcip]
        have := (List.Nodup.get_inj_iff hnd).mp hg1
        exact congrArg Fin.val this
      have hanylt : anyLt (costs.getD i' []) p = true :=
        anyLt_of_allLe_ne (by omega) hle hne2
      refine absurd ?_ (hnondom (costs.getD i' []) hmemi')
      constructor
      · intro k hk
        exact (allLe_iff _ _).mp hle k (by omega)
      · rcases (anyLt_iff _ _).mp hanylt with ⟨k, hk, hlt⟩
        exact ⟨k, by omega, hlt⟩
    · exact (mem_pareto_front costs p).mpr ⟨ip, hip, he, hcip⟩

/-- C5 witness: the exact front characterization instantiated on three
concrete points, of which two are non-dominated. -/
theorem C5_witness :
    ([[1, 2], [2, 1], [3, 3]] : List (List ℚ)).Nodup ∧
    [1, 2] ∈ pareto_front [[1, 2], [2, 1], [3, 3]] :=
  ⟨by decide,
    (C5_front_exact [[1, 2], [2, 1], [3, 3]] 2 (by decide) (by decide) [1, 2]).mpr
      (by decide)⟩

/-- C8: the Pareto front extraction is idempotent: applied to its own output
it returns that output unchanged, for every list of points. -/
theorem C8_front_idempotent (costs : List (List ℚ)) :
    pareto_front (pareto_front costs) = pareto_front costs := by
  set F := pareto_front costs with hFdef
  have hS : F = ((List.range costs.length).filter fun i => is_pareto_efficient costs i).map
      (fun i => costs.getD i []) := hFdef
  set S := (List.range costs.length).filter fun i => is_pareto_efficient costs i with hSdef
  have hSnodup : S.Nodup := (List.nodup_range costs.length).filter _
  have hSmem : ∀ a ∈ S, a < costs.length ∧ is_pareto_efficient costs a = true := by
    intro a ha
    rw [hSdef, List.mem_filter, List.mem_range] at ha
    exact ha
  have hFS : F = S.map fun i => costs.getD i [] := hS
  have hFlen : F.length = S.length := by
    rw [hFS, List.length_map]
  have hgetF : ∀ (a : ℕ) (ha : a < S.length),
      F.getD a [] = costs.getD (S.get ⟨a, ha⟩) [] := by
    intro a ha
    rw [hFS, List.getD_eq_get?, List.get?_map, List.get?_eq_get ha]
    rfl
  have hpair : ∀ a b : ℕ, a < F.length → b < F.length → a ≠ b →
      anyLt (F.getD b []) (F.getD a []) = true := by
    intro a b ha hb hab
    have ha' : a < S.length := by omega
    have hb' : b < S.length := by omega
    rw [hgetF a ha', hgetF b hb']
    have hamem := hSmem _ (List.get_mem S a ha')
    have hbmem := hSmem _ (List.get_mem S b hb')
    have hne : S.get ⟨b, hb'⟩ ≠ S.get ⟨a, ha'⟩ := by
      intro he
      have h2 := (List.Nodup.get_inj_iff hSnodup).mp he
      rw [Fin.mk.injEq] at h2
      exact hab h2.symm
    exact surviving_pairwise costs hamem.1 hamem.2 hbmem.2 hne
  have hall : ∀ j, j < F.length → is_pareto_efficient F j = true := by
    intro j hj
    exact allkept_aux F hpair (List.range F.length)
      (fun a ha => List.mem_range.mp ha) (fun _ => true) (fun _ _ => rfl) j hj
  show pareto_front F = F
  unfold pareto_front
  have hfil : ((List.range F.length).filter fun i => is_pareto_efficient F i)
      = List.range F.length := by
    rw [List.filter_eq_self]
    intro a ha
    exact hall a (List.mem_range.mp ha)
  rw [hfil, map_getD_range]

end HVModel
